import Mathlib

/-!
Shallow embedding of the `workflow` Go package (a place/transition
state-machine engine): Places, Transitions, Definitions, Markings,
the three-tier event dispatch, the guard protocol (`Can`) and
transition application (`Apply`), plus the Registry's lock discipline.

Go listeners and constraints are arbitrary caller code; they are
embedded as pure functions: an event listener maps the event data to
an optional error, a guard listener additionally returns the new value
of the guard event's blocking flag (the only engine state it can
mutate through the public API), and a constraint maps the event data
to an optional error.  The `context.Context` parameter threaded through
`CanWithContext`/`ApplyWithContext` is advisory: the engine never
inspects it, so the embedding merges those variants with `Can`/`Apply`.
-/

/-- Go: `type Place string` — an opaque comparable label. -/
abbrev Place := String

/-- Engine errors (workflow/errors.go) plus opaque caller-supplied
listener/constraint errors, which the engine returns verbatim. -/
inductive Err where
  | invalidTransition
  | invalidPlace
  | transitionNotAllowed
  | custom (n : Nat)
deriving DecidableEq, Repr

/-- Go: `EventType` constants `before_transition`, `after_transition`, `guard`. -/
inductive EventType where
  | beforeTransition
  | afterTransition
  | eventGuard
deriving DecidableEq, Repr

/-- The data a listener or constraint can read off an event: its type,
the transition (name, from, to) and the event's own from/to payloads
(`BaseEvent.from`/`BaseEvent.toPlaces`). -/
structure EvtInfo where
  etype : EventType
  transitionName : String
  transitionFrom : List Place
  transitionTo : List Place
  evFrom : List Place
  evTo : List Place

/-- Go: `GuardEvent` — a `BaseEvent` plus the `isBlocking` flag. -/
structure GuardEvt where
  info : EvtInfo
  isBlocking : Bool

/-- Go: `func (e *GuardEvent) SetBlocking(blocking bool) { e.isBlocking = blocking }`. -/
def GuardEvt.SetBlocking (e : GuardEvt) (b : Bool) : GuardEvt :=
  { e with isBlocking := b }

/-- Go: `NewGuardEvent` — the blocking flag starts `false`. -/
def NewGuardEvent (i : EvtInfo) : GuardEvt :=
  { info := i, isBlocking := false }

/-- Go: `EventListener func(Event) error`. -/
abbrev EventListener := EvtInfo → Option Err

/-- Go: `GuardEventListener func(*GuardEvent) error`.  The listener sees the
event (including the current blocking flag) and its net effect is the new
flag value together with its returned error. -/
abbrev GuardEventListener := GuardEvt → Bool × Option Err

/-- An entry of a Go `map[EventType][]interface{}` listener table: the
dispatch type-switch runs plain listeners for before/after events and
guard listeners for guard events, silently skipping entries of the
other kind. -/
inductive RListener where
  | plain (l : EventListener)
  | guardL (g : GuardEventListener)

/-- Go: `Constraint.Validate(Event) error`. -/
abbrev Constraint := EvtInfo → Option Err

/-- Go: `type Transition struct { name; from; to; metadata; constraints }`
(`from` and `to` are Lean keywords, so the fields are `fromPlaces` /
`toPlaces`, matching the `From()`/`To()` accessors; metadata is not
observable by any claim and is omitted). -/
structure Transition where
  name : String
  fromPlaces : List Place
  toPlaces : List Place
  constraints : List Constraint

/-- Errors of `NewTransition` (workflow/transition.go). -/
inductive TransitionErr where
  | emptyName
  | emptyFromSet
  | emptyToSet
  | duplicateFrom (p : Place)
  | duplicateTo (p : Place)
deriving DecidableEq, Repr

/-- Go duplicate scan: walk the list keeping the set of places seen so far,
reporting the first place already seen. -/
def firstDupAux (seen : List Place) : List Place → Option Place
  | [] => none
  | p :: rest => if seen.contains p then some p else firstDupAux (p :: seen) rest

/-- First duplicated place of a list, in Go scan order (`fromSet`/`toSet`
loops of `NewTransition`). -/
def firstDup (l : List Place) : Option Place :=
  firstDupAux [] l

/-- Go: `NewTransition(name, from, to)` — empty-name, empty-from, empty-to
checks, then the duplicate scan of `from`, then of `to`. -/
def NewTransition (name : String) (fromPl toPl : List Place) : Except TransitionErr Transition :=
  if name = "" then Except.error TransitionErr.emptyName
  else if fromPl = [] then Except.error TransitionErr.emptyFromSet
  else if toPl = [] then Except.error TransitionErr.emptyToSet
  else
    match firstDup fromPl with
    | some p => Except.error (TransitionErr.duplicateFrom p)
    | none =>
      match firstDup toPl with
      | some p => Except.error (TransitionErr.duplicateTo p)
      | none => Except.ok { name := name, fromPlaces := fromPl, toPlaces := toPl, constraints := [] }

/-- Go: `t.validate(event)` — run constraints in order, return the first error. -/
def runConstraints : List Constraint → EvtInfo → Option Err
  | [], _ => none
  | c :: cs, i =>
    match c i with
    | some e => some e
    | none => runConstraints cs i

/-- Go: `func (t *Transition) validate(event Event) error`. -/
def Transition.validate (t : Transition) (i : EvtInfo) : Option Err :=
  runConstraints t.constraints i

/-- Go: `type Definition struct { Places; Transitions; Listeners }`. -/
structure Definition where
  Places : List Place
  Transitions : List Transition
  Listeners : EventType → List RListener

/-- Go: `func (d *Definition) Place(place Place) bool` — linear scan of the
declared places. -/
def Definition.hasPlace (d : Definition) (p : Place) : Bool :=
  d.Places.contains p

/-- Error of `NewDefinition` (workflow/definition.go): names the offending
place and the transition containing it. -/
inductive DefinitionErr where
  | invalidSchema (p : Place) (transitionName : String)
deriving DecidableEq, Repr

/-- First place of `ps` not declared in `places`.  `NewDefinition` checks a
transition's `from` places fully, then its `to` places, which is the first
offender of `from ++ to`. -/
def firstUndeclared (places ps : List Place) : Option Place :=
  ps.find? (fun p => !(places.contains p))

/-- Scan the transitions in order for the first one referencing an
undeclared place, reporting that place and the transition's name. -/
def firstSchemaError (places : List Place) : List Transition → Option (Place × String)
  | [] => none
  | t :: rest =>
    match firstUndeclared places (t.fromPlaces ++ t.toPlaces) with
    | some p => some (p, t.name)
    | none => firstSchemaError places rest

/-- Go: `NewDefinition(places, transitions)` — fails with `InvalidSchema` at
the first transition referencing an undeclared place; otherwise builds the
definition (with no default listeners). -/
def NewDefinition (places : List Place) (transitions : List Transition) :
    Except DefinitionErr Definition :=
  match firstSchemaError places transitions with
  | some (p, n) => Except.error (DefinitionErr.invalidSchema p n)
  | none => Except.ok { Places := places, Transitions := transitions, Listeners := fun _ => [] }

/-- Go: `Manager` — only its dynamic listener table is observable by the
dispatch protocol. -/
structure Manager where
  Listeners : EventType → List RListener

/-- Go: `type Workflow struct` — name, definition, initial place, marking
(the current ordered place list), instance listener table, optional
manager back-reference.  The workflow context map is not observable by
any claim and is omitted. -/
structure Workflow where
  name : String
  definition : Definition
  initialPlace : Place
  marking : List Place
  listeners : EventType → List RListener
  manager : Option Manager

/-- The three-tier dispatch order of `fireEvent`: definition listeners,
then manager listeners (when a manager is attached), then instance
listeners. -/
def Workflow.allListeners (w : Workflow) (et : EventType) : List RListener :=
  w.definition.Listeners et ++
    (match w.manager with
     | some m => m.Listeners et
     | none => []) ++
    w.listeners et

/-- Run plain (non-guard) listeners in order, skipping guard-typed entries
(the Go type-switch), stopping at the first error. -/
def runPlainListeners : List RListener → EvtInfo → Option Err
  | [], _ => none
  | RListener.plain l :: rest, i =>
    match l i with
    | some e => some e
    | none => runPlainListeners rest i
  | RListener.guardL _ :: rest, i => runPlainListeners rest i

/-- Run guard listeners in order on a shared `GuardEvent`, skipping
plain-typed entries, stopping at the first error; each listener sees the
blocking flag left by its predecessors. -/
def runGuardListeners : List RListener → GuardEvt → Bool × Option Err
  | [], e => (e.isBlocking, none)
  | RListener.plain _ :: rest, e => runGuardListeners rest e
  | RListener.guardL g :: rest, e =>
    match g e with
    | (b, some err) => (b, some err)
    | (b, none) => runGuardListeners rest { e with isBlocking := b }

/-- Go: `w.fireEvent(event)` for before/after events. -/
def Workflow.fireEvent (w : Workflow) (i : EvtInfo) : Option Err :=
  runPlainListeners (w.allListeners i.etype) i

/-- Go: `w.fireEvent(event)` for a guard event, starting from a fresh
`NewGuardEvent` (blocking initially false); returns the final blocking
flag and the first listener error. -/
def Workflow.fireGuardEvent (w : Workflow) (i : EvtInfo) : Bool × Option Err :=
  runGuardListeners (w.allListeners EventType.eventGuard) (NewGuardEvent i)

/-- Go inner loop of `EnabledTransitions`/`ApplyWithContext`: every place of
`frm` occurs in `current`. -/
def allFromPresent (fromPl current : List Place) : Bool :=
  fromPl.all (fun p => current.contains p)

/-- Go: `EnabledTransitions` — the transitions whose whole `from` set is in
the current marking, with the always-`nil` error component. -/
def Workflow.EnabledTransitions (w : Workflow) : List Transition × Option Err :=
  (w.definition.Transitions.filter (fun t => allFromPresent t.fromPlaces w.marking), none)

/-- The guard event built in `CanWithContext`: its `from` payload is the
current marking (not the transition's own `from` list), its `to` payload
the requested target places. -/
def guardInfo (w : Workflow) (t : Transition) (tp : List Place) : EvtInfo :=
  { etype := EventType.eventGuard
    transitionName := t.name
    transitionFrom := t.fromPlaces
    transitionTo := t.toPlaces
    evFrom := w.marking
    evTo := tp }

/-- The body of `CanWithContext` once a positional match is found:
constraints first (hard fail, returned verbatim), then guard listeners
(first error returned), then the blocking flag (soft veto). -/
def canBody (w : Workflow) (t : Transition) (tp : List Place) : Option Err :=
  match t.validate (guardInfo w t tp) with
  | some e => some e
  | none =>
    match w.fireGuardEvent (guardInfo w t tp) with
    | (_, some err) => some err
    | (b, none) => if b then some Err.transitionNotAllowed else none

/-- The loop of `CanWithContext` over the enabled transitions: the first
one whose `to` sequence equals the target places positionally is
evaluated; no match yields `TransitionNotAllowed`. -/
def canLoop (w : Workflow) (tp : List Place) : List Transition → Option Err
  | [] => some Err.transitionNotAllowed
  | t :: rest =>
    if t.toPlaces = tp then canBody w t tp else canLoop w tp rest

/-- Go: `Can`/`CanWithContext` — empty target check, target-place
declaration check, then the match loop over the enabled transitions. -/
def Workflow.Can (w : Workflow) (tp : List Place) : Option Err :=
  if tp.isEmpty then some Err.invalidTransition
  else if tp.any (fun p => !(w.definition.hasPlace p)) then some Err.invalidPlace
  else
    match w.EnabledTransitions with
    | (_, some e) => some e
    | (enabled, none) => canLoop w tp enabled

/-- The transition-selection re-scan of `ApplyWithContext`: the first
transition whose `from` places are all in the current marking and whose
`to` equals the target places positionally. -/
def findTransition (transitions : List Transition) (current tp : List Place) :
    Option Transition :=
  transitions.find? (fun t => allFromPresent t.fromPlaces current && decide (t.toPlaces = tp))

/-- Go: `Apply`/`ApplyWithContext` — target-place validation, guard re-run,
transition re-scan, before-event, marking mutation (remove selected
transition's `from`, append targets), after-event.  Returns the workflow
after the call together with the error. -/
def Workflow.Apply (w : Workflow) (targetPlaces : List Place) : Workflow × Option Err :=
  if targetPlaces.any (fun p => !(w.definition.hasPlace p)) then
    (w, some Err.invalidPlace)
  else
    match w.Can targetPlaces with
    | some e => (w, some e)
    | none =>
      match findTransition w.definition.Transitions w.marking targetPlaces with
      | none => (w, some Err.invalidTransition)
      | some t =>
        match w.fireEvent
            { etype := EventType.beforeTransition, transitionName := t.name,
              transitionFrom := t.fromPlaces, transitionTo := t.toPlaces,
              evFrom := t.fromPlaces, evTo := targetPlaces } with
        | some e => (w, some e)
        | none =>
          let newPlaces :=
            (w.marking.filter (fun p => !(t.fromPlaces.contains p))) ++ targetPlaces
          let w' := { w with marking := newPlaces }
          match w'.fireEvent
              { etype := EventType.afterTransition, transitionName := t.name,
                transitionFrom := t.fromPlaces, transitionTo := t.toPlaces,
                evFrom := t.fromPlaces, evTo := targetPlaces } with
          | some e => (w', some e)
          | none => (w', none)

/-- Go: `CurrentPlaces` returns the marking's places. -/
def Workflow.CurrentPlaces (w : Workflow) : List Place :=
  w.marking

/-!
Registry lock discipline (workflow/registry.go).  Each Registry method is
transcribed as the sequence of lock operations and shared-map accesses it
performs, in program order; `guardedActions` checks that every map access
happens while some lock is held.
-/

/-- An atomic step of a Registry method: acquiring/releasing the write or
read side of `r.mu sync.RWMutex`, or touching the shared `r.workflows` map. -/
inductive RegAction where
  | acquireW
  | releaseW
  | acquireR
  | releaseR
  | mapRead
  | mapWrite
deriving DecidableEq, Repr

/-- `AddWorkflow`: `mu.Lock(); defer mu.Unlock()`; nil check; existence
lookup; insert.  `wfNil` short-circuits before the lookup; `dup`
short-circuits before the insert. -/
def addWorkflowActions (wfNil dup : Bool) : List RegAction :=
  if wfNil then [RegAction.acquireW, RegAction.releaseW]
  else if dup then [RegAction.acquireW, RegAction.mapRead, RegAction.releaseW]
  else [RegAction.acquireW, RegAction.mapRead, RegAction.mapWrite, RegAction.releaseW]

/-- `RemoveWorkflow`: `mu.Lock(); defer mu.Unlock()`; existence lookup;
delete when found. -/
def removeWorkflowActions (found : Bool) : List RegAction :=
  if found then [RegAction.acquireW, RegAction.mapRead, RegAction.mapWrite, RegAction.releaseW]
  else [RegAction.acquireW, RegAction.mapRead, RegAction.releaseW]

/-- `Workflow(name)`: a bare map lookup — the method body acquires no lock
at all (registry.go lines 399-404 of the concatenated source). -/
def workflowActions : List RegAction :=
  [RegAction.mapRead]

/-- `ListWorkflows`: `mu.RLock(); defer mu.RUnlock()`; map iteration. -/
def listWorkflowsActions : List RegAction :=
  [RegAction.acquireR, RegAction.mapRead, RegAction.releaseR]

/-- `HasWorkflow`: `mu.RLock(); defer mu.RUnlock()`; map lookup. -/
def hasWorkflowActions : List RegAction :=
  [RegAction.acquireR, RegAction.mapRead, RegAction.releaseR]

/-- Fold over an action trace tracking whether a lock (either side) is
held; `true` iff every map access happens under a lock. -/
def guardedAux (held : Bool) : List RegAction → Bool
  | [] => true
  | RegAction.acquireW :: rest => guardedAux true rest
  | RegAction.acquireR :: rest => guardedAux true rest
  | RegAction.releaseW :: rest => guardedAux false rest
  | RegAction.releaseR :: rest => guardedAux false rest
  | RegAction.mapRead :: rest => held && guardedAux held rest
  | RegAction.mapWrite :: rest => held && guardedAux held rest

/-- Every shared-map access of the trace is protected by a lock. -/
def guardedActions (l : List RegAction) : Bool :=
  guardedAux false l

/-!
Concrete fixtures used by the witness theorems: a small workflow over
places `a`, `b` with the single transition `go : a → b`, currently marked
at `a`, in several listener/constraint configurations.
-/

/-- The transition `go : [a] → [b]` with no constraints. -/
def tGo : Transition :=
  { name := "go", fromPlaces := ["a"], toPlaces := ["b"], constraints := [] }

/-- The transition `go : [a] → [b]` with one constraint that always fails
with the opaque error `custom 5`. -/
def tGoFail : Transition :=
  { name := "go", fromPlaces := ["a"], toPlaces := ["b"],
    constraints := [fun _ => some (Err.custom 5)] }

/-- An empty listener table. -/
def noListeners : EventType → List RListener := fun _ => []

/-- A guard listener that always sets the blocking flag and returns nil. -/
def gBlock : GuardEventListener := fun _ => (true, none)

/-- A plain listener that errors with `custom 7` on after-transition events
and passes otherwise. -/
def lAfterErr : EventListener := fun i =>
  match i.etype with
  | EventType.afterTransition => some (Err.custom 7)
  | _ => none

/-- Definition fixture: places `a`, `b`, transition `go`. -/
def defGo : Definition :=
  { Places := ["a", "b"], Transitions := [tGo], Listeners := noListeners }

/-- Definition fixture: places `a`, `b`, transition `go` carrying an
always-failing constraint. -/
def defGoFail : Definition :=
  { Places := ["a", "b"], Transitions := [tGoFail], Listeners := noListeners }

/-- Instance listener table holding only the blocking guard listener. -/
def blockTable : EventType → List RListener := fun et =>
  match et with
  | EventType.eventGuard => [RListener.guardL gBlock]
  | _ => []

/-- Instance listener table holding only the erroring after-listener. -/
def afterTable : EventType → List RListener := fun et =>
  match et with
  | EventType.eventGuard => []
  | _ => [RListener.plain lAfterErr]

/-- Workflow fixture: marked at `a`, no listeners, transition `go`. -/
def wfPlain : Workflow :=
  { name := "wf", definition := defGo, initialPlace := "a", marking := ["a"],
    listeners := noListeners, manager := none }

/-- Workflow fixture: marked at `a`, one always-blocking instance guard
listener, transition `go`. -/
def wfBlock : Workflow :=
  { name := "wf", definition := defGo, initialPlace := "a", marking := ["a"],
    listeners := blockTable, manager := none }

/-- Workflow fixture: marked at `a`, transition `go` carrying an
always-failing constraint. -/
def wfConstr : Workflow :=
  { name := "wf", definition := defGoFail, initialPlace := "a", marking := ["a"],
    listeners := noListeners, manager := none }

/-- Workflow fixture: marked at `a`, an instance listener that errors on
after-transition events, transition `go`. -/
def wfAfter : Workflow :=
  { name := "wf", definition := defGo, initialPlace := "a", marking := ["a"],
    listeners := afterTable, manager := none }

/-- A throwaway event payload for exercising `GuardEvt` directly. -/
def iEx : EvtInfo :=
  { etype := EventType.eventGuard, transitionName := "go",
    transitionFrom := ["a"], transitionTo := ["b"],
    evFrom := ["a"], evTo := ["b"] }

/-! Shared helper lemmas about the embedded operations. -/

theorem allFromPresent_iff (f c : List Place) :
    allFromPresent f c = true ↔ ∀ p ∈ f, p ∈ c := by
  simp [allFromPresent, List.all_eq_true, List.contains, List.elem_iff]

theorem canLoop_none_exists (w : Workflow) (tp : List Place) (ts : List Transition)
    (h : canLoop w tp ts = none) : ∃ t ∈ ts, t.toPlaces = tp := by
  induction ts with
  | nil => simp [canLoop] at h
  | cons t rest ih =>
    by_cases hto : t.toPlaces = tp
    · exact ⟨t, List.mem_cons_self _ _, hto⟩
    · simp only [canLoop, if_neg hto] at h
      obtain ⟨u, hu, hut⟩ := ih h
      exact ⟨u, List.mem_cons_of_mem _ hu, hut⟩

theorem canLoop_no_match (w : Workflow) (tp : List Place) (ts : List Transition)
    (h : ∀ t ∈ ts, t.toPlaces ≠ tp) :
    canLoop w tp ts = some Err.transitionNotAllowed := by
  induction ts with
  | nil => rfl
  | cons t rest ih =>
    simp only [canLoop, if_neg (h t (List.mem_cons_self _ _))]
    exact ih (fun u hu => h u (List.mem_cons_of_mem _ hu))

theorem canLoop_eq_find (w : Workflow) (tp : List Place) (ts : List Transition) :
    canLoop w tp ts =
      match ts.find? (fun t => decide (t.toPlaces = tp)) with
      | none => some Err.transitionNotAllowed
      | some t => canBody w t tp := by
  induction ts with
  | nil => rfl
  | cons t rest ih =>
    by_cases hto : t.toPlaces = tp
    · simp [canLoop, hto, List.find?_cons]
    · simp [canLoop, hto, List.find?_cons, ih]

theorem find?_filter_eq {α : Type} (l : List α) (p q : α → Bool) :
    (l.filter p).find? q = l.find? (fun a => p a && q a) := by
  induction l with
  | nil => rfl
  | cons a l ih =>
    cases hp : p a <;> cases hq : q a <;>
      simp [List.filter_cons, List.find?_cons, hp, hq, ih]

theorem can_eq (w : Workflow) (tp : List Place) :
    w.Can tp =
      if tp.isEmpty then some Err.invalidTransition
      else if tp.any (fun p => !(w.definition.hasPlace p)) then some Err.invalidPlace
      else canLoop w tp (w.definition.Transitions.filter
        (fun t => allFromPresent t.fromPlaces w.marking)) := rfl

theorem can_eq_find (w : Workflow) (tp : List Place)
    (hne : tp.isEmpty = false)
    (hval : (tp.any fun p => !(w.definition.hasPlace p)) = false) :
    w.Can tp =
      match findTransition w.definition.Transitions w.marking tp with
      | none => some Err.transitionNotAllowed
      | some t => canBody w t tp := by
  rw [can_eq, hne, hval]
  simp only [Bool.false_eq_true, if_false]
  rw [canLoop_eq_find, find?_filter_eq]
  rfl

theorem can_none_checks (w : Workflow) (tp : List Place) (h : w.Can tp = none) :
    tp.isEmpty = false ∧ (tp.any fun p => !(w.definition.hasPlace p)) = false := by
  rw [can_eq] at h
  cases he : tp.isEmpty with
  | true => rw [he] at h; simp at h
  | false =>
    cases hv : tp.any fun p => !(w.definition.hasPlace p) with
    | true => rw [he, hv] at h; simp at h
    | false => exact ⟨rfl, rfl⟩

theorem fireEvent_set_marking (w : Workflow) (m : List Place) (i : EvtInfo) :
    Workflow.fireEvent { w with marking := m } i = w.fireEvent i := rfl

theorem findTransition_props (ts : List Transition) (cur tp : List Place) (t : Transition)
    (h : findTransition ts cur tp = some t) :
    t ∈ ts ∧ allFromPresent t.fromPlaces cur = true ∧ t.toPlaces = tp := by
  have hmem := List.mem_of_find?_eq_some h
  have hpred := List.find?_some h
  simp only [Bool.and_eq_true, decide_eq_true_eq] at hpred
  exact ⟨hmem, hpred.1, hpred.2⟩

theorem runGuardListeners_blocked (ls : List RListener) (e : GuardEvt)
    (hben : ∀ g : GuardEventListener, RListener.guardL g ∈ ls →
      ∀ ev : GuardEvt, (g ev).2 = none ∧ (ev.isBlocking = true → (g ev).1 = true))
    (hsome : (∃ g : GuardEventListener, RListener.guardL g ∈ ls ∧
        ∀ ev : GuardEvt, (g ev).1 = true ∧ (g ev).2 = none) ∨ e.isBlocking = true) :
    runGuardListeners ls e = (true, none) := by
  induction ls generalizing e with
  | nil =>
    rcases hsome with ⟨g, hg, _⟩ | hb
    · simp at hg
    · simp [runGuardListeners, hb]
  | cons l rest ih =>
    cases l with
    | plain f =>
      simp only [runGuardListeners]
      refine ih e (fun g hg ev => hben g (List.mem_cons_of_mem _ hg) ev) ?_
      rcases hsome with ⟨g, hg, hprop⟩ | hb
      · rcases List.mem_cons.mp hg with heq | hmem
        · exact (RListener.noConfusion heq)
        · exact Or.inl ⟨g, hmem, hprop⟩
      · exact Or.inr hb
    | guardL g0 =>
      cases hge : g0 e with
      | mk b eo =>
        have h0 := hben g0 (List.mem_cons_self _ _) e
        rw [hge] at h0
        obtain ⟨hnone, hmono⟩ := h0
        simp only at hnone
        subst hnone
        simp only [runGuardListeners, hge]
        refine ih _ (fun g hg ev => hben g (List.mem_cons_of_mem _ hg) ev) ?_
        rcases hsome with ⟨g, hg, hprop⟩ | hb
        · rcases List.mem_cons.mp hg with heq | hmem
          · have hg0 : g = g0 := by
              injection heq
            right
            have := (hprop e).1
            rw [hg0, hge] at this
            simpa using this
          · exact Or.inl ⟨g, hmem, hprop⟩
        · right
          have := hmono hb
          simpa using this

/-- C10: `EnabledTransitions` never fails: for every workflow state its
error component is `nil` and its list holds exactly the transitions of the
definition whose entire `from` set is contained in the current marking. -/
theorem c10_enabledTransitions_total (w : Workflow) :
    (w.EnabledTransitions).2 = none ∧
    ∀ t : Transition, t ∈ (w.EnabledTransitions).1 ↔
      t ∈ w.definition.Transitions ∧ ∀ p ∈ t.fromPlaces, p ∈ w.marking := by
  refine ⟨rfl, fun t => ?_⟩
  simp [Workflow.EnabledTransitions, List.mem_filter, allFromPresent_iff]

/-- C8 counterexample: the blocking flag is not settable exactly once: on a
fresh guard event a `SetBlocking true` followed by `SetBlocking false` in
the same evaluation leaves the flag `false` again, so a later listener call
can change it back and the flag is not monotone over the dispatch
sequence. -/
theorem c8_setBlocking_reset_cex :
    ((NewGuardEvent iEx).SetBlocking true).isBlocking = true ∧
    (((NewGuardEvent iEx).SetBlocking true).SetBlocking false).isBlocking = false :=
  ⟨rfl, rfl⟩

/-- C8 amended: within one guard evaluation the blocking flag starts
`false`, and every `SetBlocking` call unconditionally overwrites it with
its argument (last write wins); it is not write-once, so a later listener
call can reset a previously set flag to `false`. -/
theorem c8_setBlocking_last_write_wins :
    (∀ i : EvtInfo, (NewGuardEvent i).isBlocking = false) ∧
    (∀ (e : GuardEvt) (b : Bool), (e.SetBlocking b).isBlocking = b) :=
  ⟨fun _ => rfl, fun _ _ => rfl⟩

/-- C9: `AddWorkflow`/`RemoveWorkflow` guard all their accesses to the
shared workflow map under the write lock, and `ListWorkflows`/`HasWorkflow`
under the read lock, but the `Workflow` lookup performs its map read with
no lock acquisition at all — the claimed all-reads-locked discipline does
not hold for `Workflow`. -/
theorem c9_registry_lock_discipline :
    (∀ wfNil dup, guardedActions (addWorkflowActions wfNil dup) = true) ∧
    (∀ found, guardedActions (removeWorkflowActions found) = true) ∧
    guardedActions listWorkflowsActions = true ∧
    guardedActions hasWorkflowActions = true ∧
    guardedActions workflowActions = false ∧
    RegAction.acquireR ∉ workflowActions ∧
    RegAction.acquireW ∉ workflowActions := by
  refine ⟨fun a b => ?_, fun a => ?_, rfl, rfl, rfl, by decide, by decide⟩
  · cases a <;> cases b <;> rfl
  · cases a <;> rfl

theorem firstDupAux_eq_none_iff (l : List Place) : ∀ seen : List Place,
    (firstDupAux seen l = none ↔ l.Nodup ∧ ∀ p ∈ l, p ∉ seen) := by
  induction l with
  | nil => intro seen; simp [firstDupAux]
  | cons p rest ih =>
    intro seen
    cases hc : seen.contains p with
    | true =>
      have hps : p ∈ seen := by simpa [List.contains, List.elem_iff] using hc
      have hfd : firstDupAux seen (p :: rest) = some p := by
        simp only [firstDupAux, hc]
        simp
      rw [hfd]
      constructor
      · intro h; exact Option.noConfusion h
      · rintro ⟨-, hall⟩
        exact absurd hps (hall p (List.mem_cons_self _ _))
    | false =>
      have hps : p ∉ seen := by simpa [List.contains, List.elem_iff] using hc
      have hfd : firstDupAux seen (p :: rest) = firstDupAux (p :: seen) rest := by
        simp only [firstDupAux, hc]
        simp
      rw [hfd, ih (p :: seen), List.nodup_cons]
      constructor
      · rintro ⟨hnd, hall⟩
        refine ⟨⟨fun hp => ?_, hnd⟩, ?_⟩
        · exact (hall p hp) (List.mem_cons_self _ _)
        · intro q hq
          rcases List.mem_cons.mp hq with rfl | hqr
          · exact hps
          · intro hqs
            exact (hall q hqr) (List.mem_cons_of_mem _ hqs)
      · rintro ⟨⟨hpr, hnd⟩, hall⟩
        refine ⟨hnd, fun q hq hmem => ?_⟩
        rcases List.mem_cons.mp hmem with rfl | hqs
        · exact hpr hq
        · exact (hall q (List.mem_cons_of_mem _ hq)) hqs

theorem firstDup_eq_none_iff (l : List Place) : firstDup l = none ↔ l.Nodup := by
  simp [firstDup, firstDupAux_eq_none_iff l []]

theorem newTransition_isOk_iff (name : String) (fromPl toPl : List Place) :
    (NewTransition name fromPl toPl).isOk = true ↔
      name ≠ "" ∧ fromPl ≠ [] ∧ toPl ≠ [] ∧
        firstDup fromPl = none ∧ firstDup toPl = none := by
  by_cases h1 : name = ""
  · simp [NewTransition, h1, Except.isOk, Except.toBool]
  · by_cases h2 : fromPl = []
    · simp [NewTransition, h1, h2, Except.isOk, Except.toBool]
    · by_cases h3 : toPl = []
      · simp [NewTransition, h1, h2, h3, Except.isOk, Except.toBool]
      · cases hf : firstDup fromPl with
        | some p => simp [NewTransition, h1, h2, h3, hf, Except.isOk, Except.toBool]
        | none =>
          cases ht : firstDup toPl with
          | some p => simp [NewTransition, h1, h2, h3, hf, ht, Except.isOk, Except.toBool]
          | none => simp [NewTransition, h1, h2, h3, hf, ht, Except.isOk, Except.toBool]

/-- C6: `NewTransition` fails exactly when the name is empty, `from` is
empty, `to` is empty, or `from` or `to` individually contains a repeated
place; in particular a self-transition `[p] → [p]` (same place in both
`from` and `to`) constructs successfully whenever the name is nonempty. -/
theorem c6_newTransition_valid_iff (name : String) (fromPl toPl : List Place) :
    ((NewTransition name fromPl toPl).isOk = true ↔
      name ≠ "" ∧ fromPl ≠ [] ∧ toPl ≠ [] ∧ fromPl.Nodup ∧ toPl.Nodup) ∧
    (∀ p : Place, name ≠ "" → (NewTransition name [p] [p]).isOk = true) := by
  constructor
  · rw [newTransition_isOk_iff, firstDup_eq_none_iff, firstDup_eq_none_iff]
  · intro p hname
    rw [newTransition_isOk_iff]
    exact ⟨hname, by simp, by simp, by simp [firstDup, firstDupAux],
      by simp [firstDup, firstDupAux]⟩

/-- Witness for C6 at a concrete self-transition. -/
theorem c6_newTransition_valid_iff_witness :
    (NewTransition "go" ["a"] ["a"]).isOk = true :=
  (c6_newTransition_valid_iff "go" ["a"] ["a"]).2 "a" (by decide)

theorem contains_eq_true_iff (l : List Place) (p : Place) :
    l.contains p = true ↔ p ∈ l := by
  simp [List.contains, List.elem_iff]

theorem contains_eq_false_iff (l : List Place) (p : Place) :
    l.contains p = false ↔ p ∉ l := by
  rw [← Bool.not_eq_true, ← contains_eq_true_iff]

theorem find?_some_split {α : Type} (l : List α) (pred : α → Bool) (a : α)
    (h : l.find? pred = some a) :
    pred a = true ∧ ∃ s1 s2, l = s1 ++ a :: s2 ∧ ∀ x ∈ s1, pred x = false := by
  induction l with
  | nil => simp [List.find?] at h
  | cons b l ih =>
    cases hb : pred b with
    | true =>
      rw [List.find?_cons, hb] at h
      simp only [if_true] at h
      have hba : b = a := by simpa using h
      subst hba
      exact ⟨hb, [], l, rfl, by simp⟩
    | false =>
      rw [List.find?_cons, hb] at h
      simp only [Bool.false_eq_true, if_false] at h
      obtain ⟨hpa, s1, s2, rfl, hall⟩ := ih h
      refine ⟨hpa, b :: s1, s2, rfl, fun x hx => ?_⟩
      rcases List.mem_cons.mp hx with rfl | hxm
      · exact hb
      · exact hall x hxm

theorem firstSchemaError_eq_none_iff (places : List Place) (ts : List Transition) :
    firstSchemaError places ts = none ↔
      ∀ t ∈ ts, ∀ p ∈ t.fromPlaces ++ t.toPlaces, places.contains p = true := by
  induction ts with
  | nil => simp [firstSchemaError]
  | cons t rest ih =>
    cases hf : firstUndeclared places (t.fromPlaces ++ t.toPlaces) with
    | some p =>
      simp only [firstSchemaError, hf]
      constructor
      · intro h; exact Option.noConfusion h
      · intro h
        have hpred := List.find?_some hf
        have hmem := List.mem_of_find?_eq_some hf
        have := h t (List.mem_cons_self _ _) p hmem
        rw [this] at hpred
        exact Bool.noConfusion hpred
    | none =>
      simp only [firstSchemaError, hf, ih]
      constructor
      · intro h u hu
        rcases List.mem_cons.mp hu with rfl | hum
        · intro p hp
          have := List.find?_eq_none.mp hf p hp
          simpa using this
        · exact h u hum
      · intro h u hu
        exact h u (List.mem_cons_of_mem _ hu)

theorem firstSchemaError_some_split (places : List Place) (ts : List Transition)
    (p : Place) (n : String) (h : firstSchemaError places ts = some (p, n)) :
    places.contains p = false ∧
    ∃ pre t post, ts = pre ++ t :: post ∧
      (∀ u ∈ pre, ∀ q ∈ u.fromPlaces ++ u.toPlaces, places.contains q = true) ∧
      t.name = n ∧
      ∃ qs1 qs2, t.fromPlaces ++ t.toPlaces = qs1 ++ p :: qs2 ∧
        ∀ q ∈ qs1, places.contains q = true := by
  induction ts with
  | nil => simp [firstSchemaError] at h
  | cons t rest ih =>
    cases hf : firstUndeclared places (t.fromPlaces ++ t.toPlaces) with
    | some q =>
      simp only [firstSchemaError, hf] at h
      have hqp : q = p ∧ t.name = n := by
        have h2 := h
        injection h2 with h3
        exact ⟨congrArg Prod.fst h3, congrArg Prod.snd h3⟩
      obtain ⟨rfl, hn⟩ := hqp
      obtain ⟨hpred, qs1, qs2, hsplit, hall⟩ := find?_some_split _ _ _ hf
      refine ⟨by simpa using hpred, [], t, rest, rfl, by simp, hn, qs1, qs2, hsplit,
        fun q hq => ?_⟩
      have := hall q hq
      simpa using this
    | none =>
      simp only [firstSchemaError, hf] at h
      obtain ⟨hc, pre, u, post, rfl, hpre, hn, hrest⟩ := ih h
      refine ⟨hc, t :: pre, u, post, rfl, fun v hv => ?_, hn, hrest⟩
      rcases List.mem_cons.mp hv with rfl | hvm
      · intro q hq
        have := List.find?_eq_none.mp hf q hq
        simpa using this
      · exact hpre v hvm

/-- C7: `NewDefinition` succeeds exactly when every place appearing in any
transition's `from` or `to` list is among the declared places; on failure
the reported error names the first offending place (first transition in
order, `from` places before `to` places, all earlier references declared)
and the transition containing it. -/
theorem c7_newDefinition_iff (places : List Place) (ts : List Transition) :
    ((NewDefinition places ts).isOk = true ↔
      ∀ t ∈ ts, ∀ p ∈ t.fromPlaces ++ t.toPlaces, p ∈ places) ∧
    (∀ (p : Place) (n : String),
      NewDefinition places ts = Except.error (DefinitionErr.invalidSchema p n) →
        p ∉ places ∧
        ∃ pre t post, ts = pre ++ t :: post ∧
          (∀ u ∈ pre, ∀ q ∈ u.fromPlaces ++ u.toPlaces, q ∈ places) ∧
          t.name = n ∧
          ∃ qs1 qs2, t.fromPlaces ++ t.toPlaces = qs1 ++ p :: qs2 ∧
            ∀ q ∈ qs1, q ∈ places) := by
  constructor
  · unfold NewDefinition
    cases hs : firstSchemaError places ts with
    | some pn =>
      cases pn with
      | mk p n =>
        simp only [Except.isOk, Except.toBool]
        constructor
        · intro h; exact Bool.noConfusion h
        · intro h
          have hnone : firstSchemaError places ts = none := by
            rw [firstSchemaError_eq_none_iff]
            intro t ht q hq
            exact (contains_eq_true_iff places q).mpr (h t ht q hq)
          rw [hnone] at hs
          exact Option.noConfusion hs
    | none =>
      simp only [Except.isOk, Except.toBool, true_iff]
      intro t ht q hq
      exact (contains_eq_true_iff places q).mp
        ((firstSchemaError_eq_none_iff places ts).mp hs t ht q hq)
  · intro p n h
    unfold NewDefinition at h
    cases hs : firstSchemaError places ts with
    | none =>
      rw [hs] at h
      exact Except.noConfusion h
    | some pn =>
      rw [hs] at h
      cases pn with
      | mk q m =>
        have hqm : q = p ∧ m = n := by
          injection h with h2
          injection h2 with h3 h4
          exact ⟨h3, h4⟩
        obtain ⟨rfl, rfl⟩ := hqm
        obtain ⟨hc, pre, t, post, hts, hpre, hn, qs1, qs2, hsplit, hall⟩ :=
          firstSchemaError_some_split places ts q m hs
        exact ⟨(contains_eq_false_iff places q).mp hc, pre, t, post, hts,
          fun u hu q' hq' => (contains_eq_true_iff places q').mp (hpre u hu q' hq'),
          hn, qs1, qs2, hsplit,
          fun q' hq' => (contains_eq_true_iff places q').mp (hall q' hq')⟩

/-- Witness for C7: `NewDefinition` over declared places `[a]` and the
transition `go : [a] → [b]` reports `b` in transition `go` as the first
offender. -/
theorem c7_newDefinition_iff_witness :
    "b" ∉ (["a"] : List Place) ∧
    ∃ pre t post, ([tGo] : List Transition) = pre ++ t :: post ∧
      (∀ u ∈ pre, ∀ q ∈ u.fromPlaces ++ u.toPlaces, q ∈ (["a"] : List Place)) ∧
      t.name = "go" ∧
      ∃ qs1 qs2, t.fromPlaces ++ t.toPlaces = qs1 ++ "b" :: qs2 ∧
        ∀ q ∈ qs1, q ∈ (["a"] : List Place) :=
  (c7_newDefinition_iff ["a"] [tGo]).2 "b" "go" rfl

/-- C2: `Can` returns `InvalidTransition` on an empty target list; it can
succeed only if some transition whose entire `from` set is contained in the
current marking has a `to` sequence positionally equal to the requested
targets; and when the targets are nonempty, all declared, and no enabled
transition matches positionally (for instance a permutation of a declared
multi-target `to` order), `Can` returns `TransitionNotAllowed`. -/
theorem c2_can_positional (w : Workflow) (tp : List Place) :
    (tp = [] → w.Can tp = some Err.invalidTransition) ∧
    (w.Can tp = none →
      ∃ t ∈ w.definition.Transitions,
        allFromPresent t.fromPlaces w.marking = true ∧ t.toPlaces = tp) ∧
    (tp ≠ [] → (∀ p ∈ tp, w.definition.hasPlace p = true) →
      (∀ t ∈ w.definition.Transitions,
        allFromPresent t.fromPlaces w.marking = true → t.toPlaces ≠ tp) →
      w.Can tp = some Err.transitionNotAllowed) := by
  refine ⟨?_, ?_, ?_⟩
  · rintro rfl
    rfl
  · intro h
    obtain ⟨hne, hval⟩ := can_none_checks w tp h
    rw [can_eq, hne, hval] at h
    simp only [Bool.false_eq_true, if_false] at h
    obtain ⟨t, ht, hto⟩ := canLoop_none_exists w tp _ h
    rw [List.mem_filter] at ht
    exact ⟨t, ht.1, ht.2, hto⟩
  · intro hne hval hnomatch
    have hisE : tp.isEmpty = false := by
      cases tp with
      | nil => exact absurd rfl hne
      | cons a l => rfl
    have hany : (tp.any fun p => !(w.definition.hasPlace p)) = false := by
      rw [List.any_eq_false]
      intro p hp
      rw [hval p hp]
      simp
    rw [can_eq, hisE, hany]
    simp only [Bool.false_eq_true, if_false]
    apply canLoop_no_match
    intro t ht
    rw [List.mem_filter] at ht
    exact hnomatch t ht.1 ht.2

/-- Witness for C2: on the fixture workflow, `Can []` is `InvalidTransition`,
`Can ["b"]` succeeds through the positional match `go : [a] → [b]`, and
`Can ["a"]` (declared place, no matching transition) is
`TransitionNotAllowed`. -/
theorem c2_can_positional_witness :
    wfPlain.Can [] = some Err.invalidTransition ∧
    (∃ t ∈ wfPlain.definition.Transitions,
      allFromPresent t.fromPlaces wfPlain.marking = true ∧ t.toPlaces = ["b"]) ∧
    wfPlain.Can ["a"] = some Err.transitionNotAllowed :=
  ⟨(c2_can_positional wfPlain []).1 rfl,
   (c2_can_positional wfPlain ["b"]).2.1 rfl,
   (c2_can_positional wfPlain ["a"]).2.2 (by decide) (by decide) (by decide)⟩

theorem apply_success_eq (w : Workflow) (tp : List Place) (t : Transition)
    (hany : (tp.any fun p => !(w.definition.hasPlace p)) = false)
    (hcan : w.Can tp = none)
    (hfind : findTransition w.definition.Transitions w.marking tp = some t)
    (hbefore : w.fireEvent ⟨EventType.beforeTransition, t.name, t.fromPlaces,
      t.toPlaces, t.fromPlaces, tp⟩ = none) :
    w.Apply tp =
      ({ w with marking := (w.marking.filter fun p => !(t.fromPlaces.contains p)) ++ tp },
       w.fireEvent ⟨EventType.afterTransition, t.name, t.fromPlaces,
         t.toPlaces, t.fromPlaces, tp⟩) := by
  cases hafter : w.fireEvent ⟨EventType.afterTransition, t.name, t.fromPlaces,
      t.toPlaces, t.fromPlaces, tp⟩ with
  | none =>
    simp [Workflow.Apply, hany, hcan, hfind, hbefore, fireEvent_set_marking, hafter]
  | some e =>
    simp [Workflow.Apply, hany, hcan, hfind, hbefore, fireEvent_set_marking, hafter]

/-- C1: whenever `Apply` returns nil, the marking afterwards is exactly the
prior marking with every place of the selected transition's `from` set
removed (survivors in their original order) followed by the target places
appended in order; the selected transition is the first one enabled in the
prior marking whose `to` equals the targets positionally. -/
theorem c1_apply_marking (w : Workflow) (tp : List Place)
    (h : (w.Apply tp).2 = none) :
    ∃ t ∈ w.definition.Transitions,
      allFromPresent t.fromPlaces w.marking = true ∧ t.toPlaces = tp ∧
      findTransition w.definition.Transitions w.marking tp = some t ∧
      (w.Apply tp).1.marking =
        (w.marking.filter fun p => !(t.fromPlaces.contains p)) ++ tp := by
  cases hany : tp.any (fun p => !(w.definition.hasPlace p)) with
  | true =>
    have heq : w.Apply tp = (w, some Err.invalidPlace) := by
      simp [Workflow.Apply, hany]
    rw [heq] at h
    exact Option.noConfusion h
  | false =>
    cases hcan : w.Can tp with
    | some e =>
      have heq : w.Apply tp = (w, some e) := by
        simp [Workflow.Apply, hany, hcan]
      rw [heq] at h
      exact Option.noConfusion h
    | none =>
      cases hfind : findTransition w.definition.Transitions w.marking tp with
      | none =>
        have heq : w.Apply tp = (w, some Err.invalidTransition) := by
          simp [Workflow.Apply, hany, hcan, hfind]
        rw [heq] at h
        exact Option.noConfusion h
      | some t =>
        cases hbefore : w.fireEvent ⟨EventType.beforeTransition, t.name,
            t.fromPlaces, t.toPlaces, t.fromPlaces, tp⟩ with
        | some e =>
          have heq : w.Apply tp = (w, some e) := by
            simp [Workflow.Apply, hany, hcan, hfind, hbefore]
          rw [heq] at h
          exact Option.noConfusion h
        | none =>
          have heq := apply_success_eq w tp t hany hcan hfind hbefore
          obtain ⟨hmem, hfp, hto⟩ := findTransition_props _ _ _ _ hfind
          exact ⟨t, hmem, hfp, hto, rfl, by rw [heq]⟩

/-- Witness for C1 at the fixture: `Apply ["b"]` from marking `["a"]`
succeeds and the new marking is `["b"]`. -/
theorem c1_apply_marking_witness :
    (wfPlain.Apply ["b"]).2 = none ∧
    ∃ t ∈ wfPlain.definition.Transitions,
      allFromPresent t.fromPlaces wfPlain.marking = true ∧ t.toPlaces = ["b"] ∧
      findTransition wfPlain.definition.Transitions wfPlain.marking ["b"] = some t ∧
      (wfPlain.Apply ["b"]).1.marking =
        (wfPlain.marking.filter fun p => !(t.fromPlaces.contains p)) ++ ["b"] :=
  ⟨rfl, c1_apply_marking wfPlain ["b"] rfl⟩

/-- C5: if the guard and the before-transition dispatch succeed but the
after-transition dispatch returns an error, `Apply` returns that error
while the resulting marking already reflects the post-transition state:
the mutation is not rolled back. -/
theorem c5_after_error_no_rollback (w : Workflow) (tp : List Place) (t : Transition)
    (e : Err)
    (hcan : w.Can tp = none)
    (hfind : findTransition w.definition.Transitions w.marking tp = some t)
    (hbefore : w.fireEvent ⟨EventType.beforeTransition, t.name, t.fromPlaces,
      t.toPlaces, t.fromPlaces, tp⟩ = none)
    (hafter : w.fireEvent ⟨EventType.afterTransition, t.name, t.fromPlaces,
      t.toPlaces, t.fromPlaces, tp⟩ = some e) :
    (w.Apply tp).2 = some e ∧
    (w.Apply tp).1.marking =
      (w.marking.filter fun p => !(t.fromPlaces.contains p)) ++ tp := by
  have hany : (tp.any fun p => !(w.definition.hasPlace p)) = false :=
    (can_none_checks w tp hcan).2
  have heq := apply_success_eq w tp t hany hcan hfind hbefore
  rw [heq, hafter]
  exact ⟨rfl, rfl⟩

/-- Witness for C5 at the fixture with an erroring after-listener: `Apply
["b"]` returns the listener's error while the marking is already `["b"]`. -/
theorem c5_after_error_no_rollback_witness :
    (wfAfter.Apply ["b"]).2 = some (Err.custom 7) ∧
    (wfAfter.Apply ["b"]).1.marking =
      (wfAfter.marking.filter fun p => !(tGo.fromPlaces.contains p)) ++ ["b"] :=
  c5_after_error_no_rollback wfAfter ["b"] tGo (Err.custom 7) rfl rfl rfl rfl

/-- C4: if the first transition matching the requested targets carries a
constraint chain whose validation returns an error `e`, then `Can` and
`Apply` both return exactly `e` and the workflow (in particular its
marking) is left unchanged — for every listener configuration, since the
workflow (and with it all three listener tiers) is universally
quantified, so no listener behavior can make the transition applicable. -/
theorem c4_constraint_hard_fail (w : Workflow) (tp : List Place) (t : Transition)
    (e : Err)
    (hne : tp ≠ [])
    (hval : ∀ p ∈ tp, w.definition.hasPlace p = true)
    (hfind : findTransition w.definition.Transitions w.marking tp = some t)
    (hconstr : t.validate (guardInfo w t tp) = some e) :
    w.Can tp = some e ∧ w.Apply tp = (w, some e) := by
  have hisE : tp.isEmpty = false := by
    cases tp with
    | nil => exact absurd rfl hne
    | cons a l => rfl
  have hany : (tp.any fun p => !(w.definition.hasPlace p)) = false := by
    rw [List.any_eq_false]
    intro p hp
    rw [hval p hp]
    simp
  have hcan : w.Can tp = some e := by
    rw [can_eq_find w tp hisE hany, hfind]
    simp only [canBody, hconstr]
  exact ⟨hcan, by simp [Workflow.Apply, hany, hcan]⟩

/-- Witness for C4 at the fixture whose transition carries an
always-failing constraint: `Can`/`Apply` return the constraint's error
verbatim and the workflow is unchanged. -/
theorem c4_constraint_hard_fail_witness :
    wfConstr.Can ["b"] = some (Err.custom 5) ∧
    wfConstr.Apply ["b"] = (wfConstr, some (Err.custom 5)) :=
  c4_constraint_hard_fail wfConstr ["b"] tGoFail (Err.custom 5)
    (by decide) (by decide) rfl rfl

/-- C3: if the matched transition's constraints pass, every guard listener
returns a nil error and preserves an already-set blocking flag, and some
guard listener always sets the flag, then `Can` fails with
`TransitionNotAllowed` and `Apply` fails the same way with the workflow —
hence the marking — unchanged: the guard runs before any mutation. -/
theorem c3_guard_veto (w : Workflow) (tp : List Place) (t : Transition)
    (hne : tp ≠ [])
    (hval : ∀ p ∈ tp, w.definition.hasPlace p = true)
    (hfind : findTransition w.definition.Transitions w.marking tp = some t)
    (hconstr : t.validate (guardInfo w t tp) = none)
    (hben : ∀ g : GuardEventListener,
      RListener.guardL g ∈ w.allListeners EventType.eventGuard →
      ∀ ev : GuardEvt, (g ev).2 = none ∧ (ev.isBlocking = true → (g ev).1 = true))
    (hblock : ∃ g : GuardEventListener,
      RListener.guardL g ∈ w.allListeners EventType.eventGuard ∧
      ∀ ev : GuardEvt, (g ev).1 = true ∧ (g ev).2 = none) :
    w.Can tp = some Err.transitionNotAllowed ∧
    w.Apply tp = (w, some Err.transitionNotAllowed) := by
  have hisE : tp.isEmpty = false := by
    cases tp with
    | nil => exact absurd rfl hne
    | cons a l => rfl
  have hany : (tp.any fun p => !(w.definition.hasPlace p)) = false := by
    rw [List.any_eq_false]
    intro p hp
    rw [hval p hp]
    simp
  have hguard : w.fireGuardEvent (guardInfo w t tp) = (true, none) :=
    runGuardListeners_blocked _ _ hben (Or.inl hblock)
  have hcan : w.Can tp = some Err.transitionNotAllowed := by
    rw [can_eq_find w tp hisE hany, hfind]
    simp [canBody, hconstr, hguard]
  exact ⟨hcan, by simp [Workflow.Apply, hany, hcan]⟩

/-- Witness for C3 at the fixture with an always-blocking guard listener:
`Can ["b"]` and `Apply ["b"]` fail with `TransitionNotAllowed` and the
workflow is unchanged. -/
theorem c3_guard_veto_witness :
    wfBlock.Can ["b"] = some Err.transitionNotAllowed ∧
    wfBlock.Apply ["b"] = (wfBlock, some Err.transitionNotAllowed) :=
  c3_guard_veto wfBlock ["b"] tGo (by decide) (by decide) rfl rfl
    (fun g hg ev => by
      have hgl : RListener.guardL g = RListener.guardL gBlock := by
        simpa [Workflow.allListeners, wfBlock, defGo, noListeners, blockTable] using hg
      have hggb : g = gBlock := by injection hgl
      subst hggb
      exact ⟨rfl, fun _ => rfl⟩)
    ⟨gBlock, by simp [Workflow.allListeners, wfBlock, defGo, noListeners, blockTable],
      fun ev => ⟨rfl, rfl⟩⟩
